import Mathlib

/-!
# A verification model of the TimerThread timer engine

Shallow embedding of the timer engine from `inc/timerthread.hxx` and
`src/timerthread.cxx`.

Modelling choices:

* Timestamps (`Timestamp`, `Clock::now()`) and durations (`time_us_t`,
  `std::chrono::microseconds`) are microsecond counts, embedded as `Int`.
* `timer_id_t` is `std::uint64_t`; the id counter update `nextId++` is
  embedded with its 64-bit wraparound (`% 2 ^ 64`).
* The handler `std::function<void()>` is represented by an opaque tag
  (`Nat`); invoking a handler is an observable event, not executed code.
* `TimerMap` (`std::unordered_map<timer_id_t, Timer>`) is a list of
  timers with at most one entry per id (an invariant of every reachable
  state); `erase(id)` is a filter on the id.
* `Queue` (`std::multiset<std::reference_wrapper<Timer>,
  NextActiveComparator>`) is a list of `(key, id)` pairs kept sorted by
  key, where the key is the referenced timer's `next` at insertion time.
  `emplace` inserts at the upper bound of the equal range, exactly as
  `std::multiset` does, and `erase(const key_type &)` removes every
  entry whose key is equivalent, exactly as `std::multiset` does.
* The concurrency of the worker thread and of caller threads is a
  small-step relation `Step` at the granularity of the critical
  sections of the single engine lock.  Handlers run with the lock
  released: firing a timer and reconciling after its handler returns are
  two separate steps, and any caller-side step can interleave between
  them.  A caller blocked in `destroy_impl` on a timer's condition
  variable is recorded in a `waiters` list.
-/

namespace TimerThread

/-- Modulus of `timer_id_t` (`std::uint64_t`). -/
def UINT64_MOD : Nat := 2 ^ 64

/-- `TimerThread::no_timer`: valid ids are guaranteed not to be this value. -/
def no_timer : Nat := 0

/-- `nextId++` on a `std::uint64_t` counter (timerthread.cxx line 124). -/
def idUpdate (n : Nat) : Nat := (n + 1) % UINT64_MOD

/-- `TimerThread::Timer` (timerthread.hxx lines 162-185).  `handler` is an
opaque tag for the stored callable; `hasWaitCond` records whether the
lazily allocated `waitCond` condition variable is present. -/
structure Timer where
  id : Nat
  next : Int
  period : Int
  handler : Nat
  hasWaitCond : Bool
  running : Bool
deriving DecidableEq

/-- The engine state protected by the lock `sync`: the id source `nextId`,
the registry `active`, the ordering queue `queue` and the shutdown flag
`done` (timerthread.hxx lines 205-221). -/
structure EngineState where
  nextId : Nat
  active : List Timer
  queue : List (Int × Nat)
  done : Bool
deriving DecidableEq

/-- `active.find(id)` on the registry. -/
def findTimer (a : List Timer) (id : Nat) : Option Timer :=
  a.find? (fun t => t.id == id)

/-- `active.erase(id)` on the registry (one entry per key, so a filter). -/
def eraseTimer (a : List Timer) (id : Nat) : List Timer :=
  a.filter (fun t => t.id != id)

/-- In-place mutation of the registry entry `id` through a reference. -/
def setTimer (a : List Timer) (id : Nat) (f : Timer → Timer) : List Timer :=
  a.map (fun t => if t.id = id then f t else t)

/-- `timer.running = true` (timerthread.cxx line 28). -/
def markRunning (u : Timer) : Timer := { u with running := true }

/-- `timer.running = false; timer.waitCond.reset(new ConditionVar)`
(timerthread.cxx lines 190-193). -/
def markCancelled (u : Timer) : Timer :=
  { u with running := false, hasWaitCond := true }

/-- `timer.running = false; timer.next = timer.next + timer.period`
(timerthread.cxx lines 37-42). -/
def advancePeriod (u : Timer) : Timer :=
  { u with running := false, next := u.next + u.period }

/-- `queue.emplace(timer)`: `std::multiset` insertion at the upper bound of
the equal range, i.e. before the first strictly greater key. -/
def qinsert (e : Int × Nat) : List (Int × Nat) → List (Int × Nat)
  | [] => [e]
  | x :: xs => if e.1 < x.1 then e :: x :: xs else x :: qinsert e xs

/-- `queue.erase(timer)`: resolves to `std::multiset::erase(const key_type&)`,
which removes every element equivalent under `NextActiveComparator`, i.e.
every entry whose key equals `timer.next` (timerthread.cxx line 200). -/
def qEraseKey (k : Int) (q : List (Int × Nat)) : List (Int × Nat) :=
  q.filter (fun x => x.1 != k)

/-- Ids present in the registry. -/
def activeIds (e : EngineState) : List Nat := e.active.map Timer.id

/-- Ids present in the ordering queue. -/
def queueIds (e : EngineState) : List Nat := e.queue.map Prod.snd

/-- The queue is sorted by key (`NextActiveComparator`,
timerthread.hxx lines 188-193). -/
def qSorted (q : List (Int × Nat)) : Prop :=
  q.Pairwise (fun a b => a.1 ≤ b.1)

instance (q : List (Int × Nat)) : Decidable (qSorted q) :=
  List.instDecidablePairwise q

/-- Result of `TimerThread::addTimer`. -/
structure AddResult where
  id : Nat
  needNotify : Bool
  state : EngineState
deriving DecidableEq

/-- `TimerThread::addTimer(msDelay, msPeriod, handler)`
(timerthread.cxx lines 112-143), called with the current clock value
`now`.  Assigns `id = nextId++`, stores
`Timer(id, now + msDelay, msPeriod, handler)` in the registry, inserts a
reference into the ordering queue, and reports whether the caller must
notify the worker (the new entry became the queue front).  The
`active.emplace` cannot hit an existing key while the id source has not
wrapped, so it is embedded as an append. -/
def addTimer (e : EngineState) (now msDelay msPeriod : Int) (handler : Nat) :
    AddResult :=
  let id := e.nextId
  let t : Timer := ⟨id, now + msDelay, msPeriod, handler, false, false⟩
  let needNotify : Bool :=
    match e.queue with
    | [] => true
    | x :: _ => now + msDelay < x.1
  ⟨id, needNotify,
    { e with nextId := idUpdate e.nextId,
             active := e.active ++ [t],
             queue := qinsert (now + msDelay, id) e.queue }⟩

/-- `TimerThread::setInterval(handler, period)` (timerthread.cxx
lines 100-104): `addTimer(period, period, handler)`. -/
def setInterval (e : EngineState) (now : Int) (handler : Nat) (period : Int) :
    AddResult :=
  addTimer e now period period handler

/-- `TimerThread::setTimeout(handler, timeout)` (timerthread.cxx
lines 106-110): `addTimer(timeout, 0, handler)`. -/
def setTimeout (e : EngineState) (now : Int) (handler : Nat) (timeout : Int) :
    AddResult :=
  addTimer e now timeout 0 handler

/-- Result of `TimerThread::destroy_impl`: the returned boolean, whether
`wakeUp.notify_all()` ran, the state of the caller's lock on return
(`destroy_impl` returns with the lock unlocked when it notified), whether
the entry assertion `assert(lock.owns_lock())` held, and the engine
state. -/
structure DestroyResult where
  found : Bool
  notified : Bool
  locked : Bool
  assertOk : Bool
  state : EngineState
deriving DecidableEq

/-- `TimerThread::destroy_impl(lock, i, notify)` (timerthread.cxx
lines 175-211).  In the running branch the caller flips `running`,
allocates `waitCond` and blocks; the blocking itself is a `Step` of the
transition relation, this function records the state at the point the
caller starts waiting. -/
def destroy_impl (e : EngineState) (locked : Bool) (i : Option Timer)
    (notify : Bool) : DestroyResult :=
  match i with
  | none => ⟨false, false, locked, locked, e⟩
  | some t =>
    if t.running then
      ⟨true, false, locked, locked,
        { e with active := setTimer e.active t.id markCancelled }⟩
    else
      ⟨true, notify, if notify then false else locked, locked,
        { e with queue := qEraseKey t.next e.queue,
                 active := eraseTimer e.active t.id }⟩

/-- `TimerThread::clearTimer(id)` (timerthread.cxx lines 145-150). -/
def clearTimer (e : EngineState) (id : Nat) : DestroyResult :=
  destroy_impl e true (findTimer e.active id) true

/-- The loop body of `TimerThread::clear` (timerthread.cxx lines 152-160),
with enough fuel to cover every terminating execution.  Returns the final
state, the number of `wakeUp.notify_all()` calls, and whether the
`assert(lock.owns_lock())` at the top of `destroy_impl` held on every
iteration. -/
def clearGo : Nat → Bool → EngineState → EngineState × Nat × Bool
  | 0, _, e => (e, 0, true)
  | fuel + 1, locked, e =>
    match e.active with
    | [] => (e, 0, true)
    | t :: _ =>
      let r := destroy_impl e locked (some t) (e.queue.length == 1)
      let rest := clearGo fuel r.locked r.state
      (rest.1, (if r.notified then 1 else 0) + rest.2.1, r.assertOk && rest.2.2)

/-- `TimerThread::clear()` (timerthread.cxx lines 152-160): repeatedly
destroy `active.begin()` while the registry is non-empty, passing
`notify = (queue.size() == 1)`. -/
def clear (e : EngineState) : EngineState × Nat × Bool :=
  clearGo e.active.length true e

/-- `TimerThread::size()` (timerthread.cxx lines 162-166). -/
def size (e : EngineState) : Nat := e.active.length

/-- `TimerThread::empty()` (timerthread.cxx lines 168-172). -/
def isEmpty (e : EngineState) : Bool := e.active.isEmpty

/-- The worker's post-handler bookkeeping when `timer.running` is still
`true` (timerthread.cxx lines 35-48): clear `running`; if the period is
positive, advance `next` by one period and re-insert into the queue,
otherwise erase the registry entry.  `t` is the state of the timer when
the lock was reacquired. -/
def reconcileRun (e : EngineState) (id : Nat) (t : Timer) : EngineState :=
  if 0 < t.period then
    { e with
        active := setTimer e.active id advancePeriod,
        queue := qinsert (t.next + t.period, id) e.queue }
  else
    { e with active := eraseTimer e.active id }

/-- `timer.waitCond->notify_all()` as seen by the blocked cancellers:
every caller waiting on `id` becomes ready to return. -/
def notifyWaiters (id : Nat) (ws : List (Nat × Bool)) : List (Nat × Bool) :=
  ws.map (fun w => if w.1 = id then (w.1, true) else w)

/-- Position of the worker thread (timerthread.cxx lines 5-69): at the top
of the loop with no handler in flight, or between `lock.unlock()` and
`lock.lock()` with the handler of timer `id` executing. -/
inductive WorkerPhase where
  | atLoop : WorkerPhase
  | inHandler (id : Nat) : WorkerPhase
deriving DecidableEq

/-- Whole-system state: the lock-protected engine state, the worker's
position, and the cancellers blocked in `destroy_impl`
(`(id, notified)`: waiting on timer `id`'s `waitCond`, woken or not). -/
structure SysState where
  eng : EngineState
  phase : WorkerPhase
  waiters : List (Nat × Bool)
deriving DecidableEq

/-- Observable events of a step. -/
inductive Ev where
  | sched (id : Nat) (now delay period : Int) (handler : Nat) (notified : Bool)
  | fireStart (id : Nat) (now : Int)
  | fireEndNormal (id : Nat)
  | fireEndCancelled (id : Nat)
  | cancelWait (id : Nat)
  | cancelRetWait (id : Nat)
  | cancelRemoved (id : Nat) (notified : Bool)
  | cancelMiss (id : Nat)
deriving DecidableEq

/-- One interleaved step of the system: a complete critical section of a
caller, or one critical section of the worker loop.  The worker's pure
waiting transitions (`queue` empty, or earliest deadline in the future)
do not change the state and are omitted.  The `sched` step carries the
side condition that the 64-bit id counter has not wrapped; `addTimer`
itself keeps the modular arithmetic. -/
inductive Step : SysState → Ev → SysState → Prop where
  | sched (s : SysState) (now delay period : Int) (handler : Nat)
      (hwrap : s.eng.nextId + 1 < UINT64_MOD) :
      Step s
        (.sched (addTimer s.eng now delay period handler).id now delay period
          handler (addTimer s.eng now delay period handler).needNotify)
        { s with eng := (addTimer s.eng now delay period handler).state }
  | fireStart (s : SysState) (k : Int) (id : Nat) (rest : List (Int × Nat))
      (t : Timer) (now : Int)
      (hq : s.eng.queue = (k, id) :: rest)
      (ht : findTimer s.eng.active id = some t)
      (hphase : s.phase = .atLoop)
      (hdone : s.eng.done = false)
      (hnow : t.next ≤ now) :
      Step s (.fireStart id now)
        { s with
            eng := { s.eng with
                      queue := rest,
                      active := setTimer s.eng.active id markRunning },
            phase := .inHandler id }
  | fireEndNormal (s : SysState) (id : Nat) (t : Timer)
      (hphase : s.phase = .inHandler id)
      (ht : findTimer s.eng.active id = some t)
      (hrun : t.running = true) :
      Step s (.fireEndNormal id)
        { s with eng := reconcileRun s.eng id t, phase := .atLoop }
  | fireEndCancelled (s : SysState) (id : Nat) (t : Timer)
      (hphase : s.phase = .inHandler id)
      (ht : findTimer s.eng.active id = some t)
      (hrun : t.running = false) :
      Step s (.fireEndCancelled id)
        { s with
            eng := { s.eng with active := eraseTimer s.eng.active id },
            waiters := notifyWaiters id s.waiters,
            phase := .atLoop }
  | cancelWait (s : SysState) (id : Nat) (t : Timer)
      (ht : findTimer s.eng.active id = some t)
      (hrun : t.running = true) :
      Step s (.cancelWait id)
        { s with
            eng := (clearTimer s.eng id).state,
            waiters := (id, false) :: s.waiters }
  | cancelRetWait (s : SysState) (id : Nat)
      (hw : (id, true) ∈ s.waiters) :
      Step s (.cancelRetWait id)
        { s with waiters := s.waiters.eraseP (fun w => w.1 == id) }
  | cancelRemoved (s : SysState) (id : Nat) (t : Timer)
      (ht : findTimer s.eng.active id = some t)
      (hrun : t.running = false) :
      Step s (.cancelRemoved id (clearTimer s.eng id).notified)
        { s with eng := (clearTimer s.eng id).state }
  | cancelMiss (s : SysState) (id : Nat)
      (hmiss : findTimer s.eng.active id = none) :
      Step s (.cancelMiss id) s

/-- Engine state after `TimerThread::TimerThread()` (timerthread.cxx
lines 71-76): `nextId = no_timer + 1`, empty containers, `done = false`. -/
def initEngine : EngineState := ⟨no_timer + 1, [], [], false⟩

/-- Initial system state: freshly constructed engine, worker at the loop
top, nobody blocked. -/
def initSys : SysState := ⟨initEngine, .atLoop, []⟩

/-- States reachable from a freshly constructed engine. -/
inductive Reach : SysState → Prop where
  | init : Reach initSys
  | step {s : SysState} {ev : Ev} {s' : SysState} :
      Reach s → Step s ev s' → Reach s'

/-- Lock-free invariants of the engine state alone. -/
structure EInv (e : EngineState) : Prop where
  nodupActive : (activeIds e).Nodup
  nodupQueue : (queueIds e).Nodup
  queueRef : ∀ x ∈ e.queue, ∃ t ∈ e.active, t.id = x.2 ∧ x.1 = t.next
  sorted : qSorted e.queue
  fresh : ∀ t ∈ e.active, t.id < e.nextId ∧ t.id ≠ no_timer
  idPos : 1 ≤ e.nextId

/-- Invariants of the whole system state. -/
structure Inv (s : SysState) : Prop where
  einv : EInv s.eng
  inHandlerNotQueued : ∀ id, s.phase = .inHandler id →
    id ∉ queueIds s.eng ∧ id < s.eng.nextId
  doneWaiter : ∀ id, (id, true) ∈ s.waiters →
    id ∉ activeIds s.eng ∧ id < s.eng.nextId ∧ s.phase ≠ .inHandler id

/-- A timer id that has been retired: it was issued (below the id source)
and no longer owns a registry entry.  Such an id can never fire again. -/
def Dead (s : SysState) (id : Nat) : Prop :=
  id < s.eng.nextId ∧ id ∉ activeIds s.eng

/-- A sequence of `addTimer` calls `(now, msDelay, msPeriod, handler)`,
returning the final engine state and the list of issued ids in call
order. -/
def runAdds : EngineState → List (Int × Int × Int × Nat) →
    EngineState × List Nat
  | e, [] => (e, [])
  | e, r :: rs =>
    let a := addTimer e r.1 r.2.1 r.2.2.1 r.2.2.2
    let rest := runAdds a.state rs
    (rest.1, a.id :: rest.2)

/-- Scenario A, state 1: one one-shot timer (id 1, deadline 5) scheduled
on a fresh engine. -/
def sA1 : SysState :=
  ⟨⟨2, [⟨1, 5, 0, 7, false, false⟩], [(5, 1)], false⟩, .atLoop, []⟩

/-- Scenario A, state 2: the worker has popped timer 1 and is executing
its handler with the lock released. -/
def sA2 : SysState :=
  ⟨⟨2, [⟨1, 5, 0, 7, false, true⟩], [], false⟩, .inHandler 1, []⟩

/-- Scenario A, state 3: a caller cancelled timer 1 while its handler was
in flight: `running` flipped to `false`, `waitCond` allocated, caller
blocked. -/
def sA3 : SysState :=
  ⟨⟨2, [⟨1, 5, 0, 7, true, false⟩], [], false⟩, .inHandler 1, [(1, false)]⟩

/-- Scenario A, state 4: the handler returned, the worker observed the
flip, notified the canceller and erased the entry. -/
def sA4 : SysState :=
  ⟨⟨2, [], [], false⟩, .atLoop, [(1, true)]⟩

/-- Scenario A, state 5: the blocked canceller woke up and returned
`true`. -/
def sA5 : SysState :=
  ⟨⟨2, [], [], false⟩, .atLoop, []⟩

/-- Scenario B, state 1: one one-shot timer (id 1, deadline 10). -/
def sB1 : SysState :=
  ⟨⟨2, [⟨1, 10, 0, 7, false, false⟩], [(10, 1)], false⟩, .atLoop, []⟩

/-- Scenario B, state 2: two one-shot timers with the same deadline 10. -/
def sB2 : SysState :=
  ⟨⟨3, [⟨1, 10, 0, 7, false, false⟩, ⟨2, 10, 0, 8, false, false⟩],
    [(10, 1), (10, 2)], false⟩, .atLoop, []⟩

/-- Scenario B, state 3: the state after `clearTimer(1)` on `sB2`.
`multiset::erase(key)` removed timer 2's queue entry as well, so timer 2
is live and idle but absent from the ordering queue. -/
def sB3 : SysState :=
  ⟨⟨3, [⟨2, 10, 0, 8, false, false⟩], [], false⟩, .atLoop, []⟩

/-- Two one-shot timers with distinct deadlines 10 and 20: cancelling
timer 2 does not change the earliest deadline. -/
def eC4 : EngineState :=
  ⟨3, [⟨1, 10, 0, 7, false, false⟩, ⟨2, 20, 0, 8, false, false⟩],
    [(10, 1), (20, 2)], false⟩

/-- Three idle one-shot timers, two of them sharing deadline 5: the state
on which `clear()` misbehaves. -/
def eC8 : EngineState :=
  ⟨4,
    [⟨1, 5, 0, 1, false, false⟩, ⟨2, 5, 0, 2, false, false⟩,
      ⟨3, 9, 0, 3, false, false⟩],
    [(5, 1), (5, 2), (9, 3)], false⟩

/-- A timer with a negative period whose handler has just returned
(`running` still `true` when the worker reconciles). -/
def tNeg : Timer := ⟨1, 100, -1, 9, false, true⟩

/-- Engine state holding only `tNeg`, checked out of the queue by the
worker. -/
def eNeg : EngineState := ⟨2, [tNeg], [], false⟩

/-- A periodic timer (period 3) whose handler has just returned. -/
def tPer : Timer := ⟨1, 5, 3, 4, false, true⟩

/-- Engine state holding only `tPer`, checked out of the queue by the
worker. -/
def ePer : EngineState := ⟨2, [tPer], [], false⟩

/-! ## Basic lemmas about the registry and queue operations -/

theorem findTimer_some {a : List Timer} {id : Nat} {t : Timer}
    (h : findTimer a id = some t) : t ∈ a ∧ t.id = id := by
  refine ⟨List.mem_of_find?_eq_some h, ?_⟩
  have hp := List.find?_some h
  simpa using hp

theorem findTimer_eq_none {a : List Timer} {id : Nat} :
    findTimer a id = none ↔ ∀ t ∈ a, t.id ≠ id := by
  simp [findTimer, List.find?_eq_none]

theorem mem_id_eq {a : List Timer} (h : (a.map Timer.id).Nodup)
    {t u : Timer} (ht : t ∈ a) (hu : u ∈ a) (hid : t.id = u.id) : t = u := by
  induction a with
  | nil => cases ht
  | cons x xs ih =>
    simp only [List.map_cons, List.nodup_cons] at h
    rcases List.mem_cons.mp ht with rfl | ht' <;>
      rcases List.mem_cons.mp hu with rfl | hu'
    · rfl
    · exact absurd (hid ▸ List.mem_map_of_mem Timer.id hu') h.1
    · exact absurd (hid ▸ List.mem_map_of_mem Timer.id ht') h.1
    · exact ih h.2 ht' hu'

theorem mem_eraseTimer {a : List Timer} {id : Nat} {t : Timer} :
    t ∈ eraseTimer a id ↔ t ∈ a ∧ t.id ≠ id := by
  simp [eraseTimer, List.mem_filter]

theorem eraseTimer_sublist (a : List Timer) (id : Nat) :
    List.Sublist (eraseTimer a id) a :=
  List.filter_sublist a

theorem id_not_mem_eraseTimer (a : List Timer) (id : Nat) :
    id ∉ (eraseTimer a id).map Timer.id := by
  intro h
  rcases List.mem_map.mp h with ⟨t, ht, hid⟩
  exact (mem_eraseTimer.mp ht).2 hid

theorem findTimer_eraseTimer (a : List Timer) (id : Nat) :
    findTimer (eraseTimer a id) id = none := by
  rw [findTimer_eq_none]
  intro t ht
  exact (mem_eraseTimer.mp ht).2

theorem setTimer_map_id {a : List Timer} {id : Nat} {f : Timer → Timer}
    (hf : ∀ t, (f t).id = t.id) :
    (setTimer a id f).map Timer.id = a.map Timer.id := by
  simp only [setTimer, List.map_map]
  refine List.map_congr_left ?_
  intro t _
  by_cases h : t.id = id <;> simp [h, hf]

theorem findTimer_setTimer {a : List Timer} {id : Nat} {f : Timer → Timer}
    (hf : ∀ t, (f t).id = t.id) :
    findTimer (setTimer a id f) id = (findTimer a id).map f := by
  induction a with
  | nil => rfl
  | cons x xs ih =>
    simp only [setTimer, List.map_cons]
    by_cases h : x.id = id
    · rw [if_pos h]
      show List.find? _ _ = Option.map f (List.find? _ (x :: xs))
      rw [List.find?_cons_of_pos, List.find?_cons_of_pos]
      · rfl
      · simpa using h
      · simpa [hf] using h
    · rw [if_neg h]
      show List.find? _ _ = Option.map f (List.find? _ (x :: xs))
      rw [List.find?_cons_of_neg, List.find?_cons_of_neg]
      · exact ih
      · simpa using h
      · simpa using h

theorem mem_setTimer_of_ne {a : List Timer} {id : Nat} {f : Timer → Timer}
    {u : Timer} (hu : u ∈ a) (hne : u.id ≠ id) : u ∈ setTimer a id f := by
  have h := List.mem_map_of_mem (fun t => if t.id = id then f t else t) hu
  simpa [setTimer, if_neg hne] using h

theorem mem_setTimer_self {a : List Timer} {id : Nat} {f : Timer → Timer}
    {t : Timer} (ht : t ∈ a) (hid : t.id = id) : f t ∈ setTimer a id f := by
  have h := List.mem_map_of_mem (fun t => if t.id = id then f t else t) ht
  simpa [setTimer, if_pos hid] using h

theorem mem_setTimer {a : List Timer} {id : Nat} {f : Timer → Timer}
    {u : Timer} (hu : u ∈ setTimer a id f) :
    ∃ t ∈ a, u = if t.id = id then f t else t := by
  rcases List.mem_map.mp hu with ⟨t, ht, hv⟩
  exact ⟨t, ht, hv.symm⟩

theorem qinsert_perm (e : Int × Nat) (q : List (Int × Nat)) :
    List.Perm (qinsert e q) (e :: q) := by
  induction q with
  | nil => rfl
  | cons x xs ih =>
    simp only [qinsert]
    split
    · exact List.Perm.refl _
    · exact (ih.cons x).trans (List.Perm.swap e x xs)

theorem mem_qinsert {e x : Int × Nat} {q : List (Int × Nat)} :
    x ∈ qinsert e q ↔ x = e ∨ x ∈ q := by
  rw [(qinsert_perm e q).mem_iff, List.mem_cons]

theorem qinsert_sorted {q : List (Int × Nat)} (e : Int × Nat)
    (h : qSorted q) : qSorted (qinsert e q) := by
  induction q with
  | nil =>
    simp [qinsert, qSorted]
  | cons x xs ih =>
    rw [qSorted, List.pairwise_cons] at h
    obtain ⟨hx, hxs⟩ := h
    simp only [qinsert]
    split
    · rename_i hlt
      rw [qSorted, List.pairwise_cons]
      refine ⟨?_, List.Pairwise.cons hx hxs⟩
      intro y hy
      rcases List.mem_cons.mp hy with rfl | hy'
      · exact le_of_lt hlt
      · exact le_trans (le_of_lt hlt) (hx y hy')
    · rename_i hge
      rw [qSorted, List.pairwise_cons]
      refine ⟨?_, ih hxs⟩
      intro y hy
      rcases mem_qinsert.mp hy with rfl | hy'
      · exact not_lt.mp hge
      · exact hx y hy'

theorem mem_qEraseKey {k : Int} {x : Int × Nat} {q : List (Int × Nat)} :
    x ∈ qEraseKey k q ↔ x ∈ q ∧ x.1 ≠ k := by
  simp [qEraseKey, List.mem_filter]

theorem qEraseKey_sublist (k : Int) (q : List (Int × Nat)) :
    List.Sublist (qEraseKey k q) q :=
  List.filter_sublist q

/-! ## Preservation of the invariants by each step -/

theorem addTimer_state_eq (e : EngineState) (now d p : Int) (h : Nat) :
    (addTimer e now d p h).state =
      { e with nextId := idUpdate e.nextId,
               active := e.active ++ [⟨e.nextId, now + d, p, h, false, false⟩],
               queue := qinsert (now + d, e.nextId) e.queue } := rfl

theorem inv_sched {s : SysState} (hs : Inv s) (now d p : Int) (hd : Nat)
    (hwrap : s.eng.nextId + 1 < UINT64_MOD) :
    Inv { s with eng := (addTimer s.eng now d p hd).state } := by
  obtain ⟨⟨hnda, hndq, href, hsort, hfresh, hpos⟩, hinq, hdw⟩ := hs
  have hmod : idUpdate s.eng.nextId = s.eng.nextId + 1 :=
    Nat.mod_eq_of_lt hwrap
  have hnotmem : s.eng.nextId ∉ s.eng.active.map Timer.id := by
    intro hmem
    rcases List.mem_map.mp hmem with ⟨t, ht, hid⟩
    exact absurd (hid ▸ (hfresh t ht).1) (lt_irrefl _)
  have hnotq : s.eng.nextId ∉ s.eng.queue.map Prod.snd := by
    intro hmem
    rcases List.mem_map.mp hmem with ⟨x, hx, hid⟩
    rcases href x hx with ⟨t, ht, htid, -⟩
    exact hnotmem (List.mem_map.mpr ⟨t, ht, by rw [htid, hid]⟩)
  rw [addTimer_state_eq]
  refine ⟨⟨?_, ?_, ?_, ?_, ?_, ?_⟩, ?_, ?_⟩
  · -- nodupActive
    simp only [activeIds, List.map_append, List.map_cons, List.map_nil]
    rw [List.nodup_append]
    exact ⟨hnda, List.nodup_singleton _,
      by intro x hx hx'; simp at hx'; exact hnotmem (hx' ▸ hx)⟩
  · -- nodupQueue
    have hperm := (qinsert_perm (now + d, s.eng.nextId) s.eng.queue).map Prod.snd
    rw [queueIds]
    rw [hperm.nodup_iff]
    simp only [List.map_cons, List.nodup_cons]
    exact ⟨hnotq, hndq⟩
  · -- queueRef
    intro x hx
    rcases mem_qinsert.mp hx with rfl | hx'
    · exact ⟨⟨s.eng.nextId, now + d, p, hd, false, false⟩,
        List.mem_append_right _ (List.mem_singleton.mpr rfl), rfl, rfl⟩
    · rcases href x hx' with ⟨t, ht, hid, hkey⟩
      exact ⟨t, List.mem_append_left _ ht, hid, hkey⟩
  · -- sorted
    exact qinsert_sorted _ hsort
  · -- fresh
    intro t ht
    rw [hmod]
    rcases List.mem_append.mp ht with ht' | ht'
    · exact ⟨Nat.lt_succ_of_lt (hfresh t ht').1, (hfresh t ht').2⟩
    · rw [List.mem_singleton.mp ht']
      exact ⟨Nat.lt_succ_self _, by simpa [no_timer] using Nat.one_le_iff_ne_zero.mp hpos⟩
  · -- idPos
    rw [hmod]
    exact le_trans hpos (Nat.le_succ _)
  · -- inHandlerNotQueued
    intro id hid
    rcases hinq id hid with ⟨hnq, hlt⟩
    constructor
    · intro hmem
      rcases List.mem_map.mp hmem with ⟨x, hx, hxid⟩
      rcases mem_qinsert.mp hx with rfl | hx'
      · exact absurd (hxid ▸ hlt) (lt_irrefl _)
      · exact hnq (List.mem_map.mpr ⟨x, hx', hxid⟩)
    · rw [hmod]; exact Nat.lt_succ_of_lt hlt
  · -- doneWaiter
    intro id hid
    rcases hdw id hid with ⟨hna, hlt, hph⟩
    refine ⟨?_, by rw [hmod]; exact Nat.lt_succ_of_lt hlt, hph⟩
    intro hmem
    simp only [activeIds, List.map_append, List.map_cons, List.map_nil] at hmem
    rcases List.mem_append.mp hmem with h' | h'
    · exact hna h'
    · rw [List.mem_singleton.mp h'] at hlt
      exact absurd hlt (lt_irrefl _)

theorem markRunning_id (u : Timer) : (markRunning u).id = u.id := rfl

theorem markCancelled_id (u : Timer) : (markCancelled u).id = u.id := rfl

theorem advancePeriod_id (u : Timer) : (advancePeriod u).id = u.id := rfl

theorem inv_fireStart {s : SysState} (hs : Inv s) {k : Int} {id : Nat}
    {rest : List (Int × Nat)}
    (hq : s.eng.queue = (k, id) :: rest) :
    Inv { s with
            eng := { s.eng with
                      queue := rest,
                      active := setTimer s.eng.active id markRunning },
            phase := .inHandler id } := by
  obtain ⟨⟨hnda, hndq, href, hsort, hfresh, hpos⟩, hinq, hdw⟩ := hs
  have hids : (setTimer s.eng.active id markRunning).map Timer.id =
      s.eng.active.map Timer.id := setTimer_map_id (fun _ => rfl)
  have hhead : (k, id) ∈ s.eng.queue := by rw [hq]; exact List.mem_cons_self _ _
  rcases href _ hhead with ⟨t0, ht0, ht0id, -⟩
  have hidact : id ∈ s.eng.active.map Timer.id :=
    List.mem_map.mpr ⟨t0, ht0, ht0id⟩
  have hidlt : id < s.eng.nextId := by
    have hh := (hfresh t0 ht0).1
    rw [ht0id] at hh
    exact hh
  have hndq' : (queueIds s.eng).Nodup := hndq
  rw [queueIds, hq, List.map_cons, List.nodup_cons] at hndq'
  refine ⟨⟨?_, ?_, ?_, ?_, ?_, ?_⟩, ?_, ?_⟩
  · show ((setTimer s.eng.active id markRunning).map Timer.id).Nodup
    rw [hids]; exact hnda
  · exact hndq'.2
  · intro x hx
    have hx' : x ∈ s.eng.queue := by rw [hq]; exact List.mem_cons_of_mem _ hx
    rcases href x hx' with ⟨u, hu, huid, hukey⟩
    by_cases hcase : u.id = id
    · exact ⟨markRunning u, mem_setTimer_self hu hcase, huid, hukey⟩
    · exact ⟨u, mem_setTimer_of_ne hu hcase, huid, hukey⟩
  · have := hsort
    rw [qSorted, hq, List.pairwise_cons] at this
    exact this.2
  · intro u hu
    rcases mem_setTimer hu with ⟨u0, hu0, hcase⟩
    have huid : u.id = u0.id := by
      rw [hcase]
      by_cases h : u0.id = id <;> simp [h, markRunning]
    rw [huid]
    exact hfresh u0 hu0
  · exact hpos
  · intro j hj
    have hj' : id = j := by
      have heq : WorkerPhase.inHandler id = WorkerPhase.inHandler j := hj
      injection heq
    subst hj'
    refine ⟨?_, hidlt⟩
    intro hmem
    exact hndq'.1 (by simpa [queueIds] using hmem)
  · intro j hj
    rcases hdw j hj with ⟨hna, hlt, -⟩
    refine ⟨by rwa [activeIds, hids], hlt, ?_⟩
    intro hcontra
    have hj' : id = j := by
      have heq : WorkerPhase.inHandler id = WorkerPhase.inHandler j := hcontra
      injection heq
    subst hj'
    exact hna hidact

theorem activeIds_eraseTimer_subset {a : List Timer} {id j : Nat}
    (h : j ∈ (eraseTimer a id).map Timer.id) : j ∈ a.map Timer.id := by
  rcases List.mem_map.mp h with ⟨u, hu, huid⟩
  exact List.mem_map.mpr ⟨u, (mem_eraseTimer.mp hu).1, huid⟩

/-- Erasing a registry entry that is not referenced by the queue preserves
the engine-state invariants. -/
theorem einv_erase {e : EngineState} (he : EInv e) {id : Nat}
    (hnq : id ∉ queueIds e) :
    EInv { e with active := eraseTimer e.active id } := by
  obtain ⟨hnda, hndq, href, hsort, hfresh, hpos⟩ := he
  refine ⟨?_, hndq, ?_, hsort, ?_, hpos⟩
  · exact hnda.sublist ((eraseTimer_sublist e.active id).map Timer.id)
  · intro x hx
    rcases href x hx with ⟨u, hu, huid, hukey⟩
    have hne : u.id ≠ id := by
      intro hcontra
      exact hnq (List.mem_map.mpr ⟨x, hx, by rw [← huid, hcontra]⟩)
    exact ⟨u, mem_eraseTimer.mpr ⟨hu, hne⟩, huid, hukey⟩
  · intro u hu
    exact hfresh u (mem_eraseTimer.mp hu).1

theorem inv_fireEndNormal {s : SysState} (hs : Inv s) {id : Nat} {t : Timer}
    (hphase : s.phase = .inHandler id)
    (ht : findTimer s.eng.active id = some t) :
    Inv { s with eng := reconcileRun s.eng id t, phase := .atLoop } := by
  obtain ⟨⟨hnda, hndq, href, hsort, hfresh, hpos⟩, hinq, hdw⟩ := hs
  obtain ⟨hnq, hlt⟩ := hinq id hphase
  obtain ⟨htmem, htid⟩ := findTimer_some ht
  by_cases hper : 0 < t.period
  · have hrec : reconcileRun s.eng id t =
        { s.eng with
            active := setTimer s.eng.active id advancePeriod,
            queue := qinsert (t.next + t.period, id) s.eng.queue } := by
      rw [reconcileRun, if_pos hper]
    rw [hrec]
    have hids : (setTimer s.eng.active id advancePeriod).map Timer.id =
        s.eng.active.map Timer.id := setTimer_map_id (fun _ => rfl)
    refine ⟨⟨?_, ?_, ?_, ?_, ?_, hpos⟩, ?_, ?_⟩
    · show ((setTimer s.eng.active id advancePeriod).map Timer.id).Nodup
      rw [hids]; exact hnda
    · have hperm :=
        (qinsert_perm (t.next + t.period, id) s.eng.queue).map Prod.snd
      rw [queueIds]
      rw [hperm.nodup_iff]
      simp only [List.map_cons, List.nodup_cons]
      exact ⟨hnq, hndq⟩
    · intro x hx
      rcases mem_qinsert.mp hx with rfl | hx'
      · refine ⟨advancePeriod t, mem_setTimer_self htmem htid, ?_, rfl⟩
        exact htid
      · rcases href x hx' with ⟨u, hu, huid, hukey⟩
        have hne : u.id ≠ id := by
          intro hcontra
          exact hnq (List.mem_map.mpr ⟨x, hx', by rw [← huid, hcontra]⟩)
        exact ⟨u, mem_setTimer_of_ne hu hne, huid, hukey⟩
    · exact qinsert_sorted _ hsort
    · intro u hu
      rcases mem_setTimer hu with ⟨u0, hu0, hcase⟩
      have huid : u.id = u0.id := by
        rw [hcase]
        by_cases h : u0.id = id <;> simp [h, advancePeriod]
      rw [huid]
      exact hfresh u0 hu0
    · intro j hj
      exact absurd hj (by exact fun h => WorkerPhase.noConfusion h)
    · intro j hj
      rcases hdw j hj with ⟨hna, hjlt, -⟩
      refine ⟨by rwa [activeIds, hids], hjlt, ?_⟩
      exact fun h => WorkerPhase.noConfusion h
  · have hrec : reconcileRun s.eng id t =
        { s.eng with active := eraseTimer s.eng.active id } := by
      rw [reconcileRun, if_neg hper]
    rw [hrec]
    refine ⟨einv_erase ⟨hnda, hndq, href, hsort, hfresh, hpos⟩ hnq, ?_, ?_⟩
    · intro j hj
      exact absurd hj (by exact fun h => WorkerPhase.noConfusion h)
    · intro j hj
      rcases hdw j hj with ⟨hna, hjlt, -⟩
      refine ⟨fun h => hna (activeIds_eraseTimer_subset h), hjlt, ?_⟩
      exact fun h => WorkerPhase.noConfusion h

theorem inv_fireEndCancelled {s : SysState} (hs : Inv s) {id : Nat}
    (hphase : s.phase = .inHandler id) :
    Inv { s with
            eng := { s.eng with active := eraseTimer s.eng.active id },
            waiters := notifyWaiters id s.waiters,
            phase := .atLoop } := by
  obtain ⟨he, hinq, hdw⟩ := hs
  obtain ⟨hnq, hlt⟩ := hinq id hphase
  refine ⟨einv_erase he hnq, ?_, ?_⟩
  · intro j hj
    exact absurd hj (by exact fun h => WorkerPhase.noConfusion h)
  · intro j hj
    rcases List.mem_map.mp hj with ⟨w, hw, hwval⟩
    by_cases hcase : w.1 = id
    · have hj' : j = id := by
        rw [if_pos hcase] at hwval
        have := congrArg Prod.fst hwval
        simpa [hcase] using this.symm
      subst hj'
      refine ⟨?_, hlt, fun h => WorkerPhase.noConfusion h⟩
      exact fun h => id_not_mem_eraseTimer s.eng.active j h
    · rw [if_neg hcase] at hwval
      rcases hdw j (hwval ▸ hw) with ⟨hna, hjlt, -⟩
      refine ⟨fun h => hna (activeIds_eraseTimer_subset h), hjlt, ?_⟩
      exact fun h => WorkerPhase.noConfusion h

theorem clearTimer_state_running {e : EngineState} {id : Nat} {t : Timer}
    (ht : findTimer e.active id = some t) (hrun : t.running = true) :
    (clearTimer e id).state =
      { e with active := setTimer e.active id markCancelled } := by
  rw [clearTimer, ht, destroy_impl]
  rw [if_pos hrun]
  rw [(findTimer_some ht).2]

theorem clearTimer_state_notRunning {e : EngineState} {id : Nat} {t : Timer}
    (ht : findTimer e.active id = some t) (hrun : t.running = false) :
    (clearTimer e id).state =
      { e with queue := qEraseKey t.next e.queue,
               active := eraseTimer e.active id } := by
  rw [clearTimer, ht, destroy_impl]
  rw [if_neg (by rw [hrun]; exact Bool.false_ne_true)]
  rw [(findTimer_some ht).2]

theorem inv_cancelWait {s : SysState} (hs : Inv s) {id : Nat} {t : Timer}
    (ht : findTimer s.eng.active id = some t) (hrun : t.running = true) :
    Inv { s with
            eng := (clearTimer s.eng id).state,
            waiters := (id, false) :: s.waiters } := by
  obtain ⟨⟨hnda, hndq, href, hsort, hfresh, hpos⟩, hinq, hdw⟩ := hs
  rw [clearTimer_state_running ht hrun]
  have hids : (setTimer s.eng.active id markCancelled).map Timer.id =
      s.eng.active.map Timer.id := setTimer_map_id (fun _ => rfl)
  refine ⟨⟨?_, hndq, ?_, hsort, ?_, hpos⟩, ?_, ?_⟩
  · show ((setTimer s.eng.active id markCancelled).map Timer.id).Nodup
    rw [hids]; exact hnda
  · intro x hx
    rcases href x hx with ⟨u, hu, huid, hukey⟩
    by_cases hcase : u.id = id
    · exact ⟨markCancelled u, mem_setTimer_self hu hcase, huid, hukey⟩
    · exact ⟨u, mem_setTimer_of_ne hu hcase, huid, hukey⟩
  · intro u hu
    rcases mem_setTimer hu with ⟨u0, hu0, hcase⟩
    have huid : u.id = u0.id := by
      rw [hcase]
      by_cases h : u0.id = id <;> simp [h, markCancelled]
    rw [huid]
    exact hfresh u0 hu0
  · intro j hj
    exact hinq j hj
  · intro j hj
    have hj' : (j, true) ∈ s.waiters := by
      rcases List.mem_cons.mp hj with h | h
      · exact absurd (congrArg Prod.snd h) (by simp)
      · exact h
    rcases hdw j hj' with ⟨hna, hjlt, hph⟩
    exact ⟨by rwa [activeIds, hids], hjlt, hph⟩

theorem inv_cancelRetWait {s : SysState} (hs : Inv s) {id : Nat} :
    Inv { s with waiters := s.waiters.eraseP (fun w => w.1 == id) } := by
  obtain ⟨he, hinq, hdw⟩ := hs
  refine ⟨he, hinq, ?_⟩
  intro j hj
  exact hdw j ((List.eraseP_sublist s.waiters).mem hj)

theorem inv_cancelRemoved {s : SysState} (hs : Inv s) {id : Nat} {t : Timer}
    (ht : findTimer s.eng.active id = some t) (hrun : t.running = false) :
    Inv { s with eng := (clearTimer s.eng id).state } := by
  obtain ⟨⟨hnda, hndq, href, hsort, hfresh, hpos⟩, hinq, hdw⟩ := hs
  rw [clearTimer_state_notRunning ht hrun]
  obtain ⟨htmem, htid⟩ := findTimer_some ht
  refine ⟨⟨?_, ?_, ?_, ?_, ?_, hpos⟩, ?_, ?_⟩
  · exact hnda.sublist ((eraseTimer_sublist s.eng.active id).map Timer.id)
  · exact hndq.sublist ((qEraseKey_sublist t.next s.eng.queue).map Prod.snd)
  · intro x hx
    obtain ⟨hxq, hxk⟩ := mem_qEraseKey.mp hx
    rcases href x hxq with ⟨u, hu, huid, hukey⟩
    have hne : u.id ≠ id := by
      intro hcontra
      have : u = t := mem_id_eq hnda hu htmem (by rw [hcontra, htid])
      exact hxk (by rw [hukey, this])
    exact ⟨u, mem_eraseTimer.mpr ⟨hu, hne⟩, huid, hukey⟩
  · exact hsort.sublist (qEraseKey_sublist t.next s.eng.queue)
  · intro u hu
    exact hfresh u (mem_eraseTimer.mp hu).1
  · intro j hj
    rcases hinq j hj with ⟨hjq, hjlt⟩
    refine ⟨?_, hjlt⟩
    intro hmem
    rcases List.mem_map.mp hmem with ⟨x, hx, hxid⟩
    exact hjq (List.mem_map.mpr ⟨x, (mem_qEraseKey.mp hx).1, hxid⟩)
  · intro j hj
    rcases hdw j hj with ⟨hna, hjlt, hph⟩
    exact ⟨fun h => hna (activeIds_eraseTimer_subset h), hjlt, hph⟩

theorem inv_init : Inv initSys := by
  refine ⟨⟨?_, ?_, ?_, ?_, ?_, ?_⟩, ?_, ?_⟩
  · exact List.nodup_nil
  · exact List.nodup_nil
  · intro x hx; cases hx
  · exact List.Pairwise.nil
  · intro t ht; cases ht
  · exact le_refl 1
  · intro id hid; exact absurd hid (fun h => WorkerPhase.noConfusion h)
  · intro id hid; cases hid

/-- Every step of the system preserves the invariants. -/
theorem inv_step {s : SysState} {ev : Ev} {s' : SysState}
    (hs : Inv s) (hstep : Step s ev s') : Inv s' := by
  cases hstep with
  | sched now delay period handler hwrap =>
    exact inv_sched hs now delay period handler hwrap
  | fireStart k id rest t now hq ht hphase hdone hnow =>
    exact inv_fireStart hs hq
  | fireEndNormal id t hphase ht hrun => exact inv_fireEndNormal hs hphase ht
  | fireEndCancelled id t hphase ht hrun => exact inv_fireEndCancelled hs hphase
  | cancelWait id t ht hrun => exact inv_cancelWait hs ht hrun
  | cancelRetWait id hw => exact inv_cancelRetWait hs
  | cancelRemoved id t ht hrun => exact inv_cancelRemoved hs ht hrun
  | cancelMiss id hmiss => exact hs

/-- Every reachable state satisfies the invariants. -/
theorem reach_inv {s : SysState} (h : Reach s) : Inv s := by
  induction h with
  | init => exact inv_init
  | step hr hstep ih => exact inv_step ih hstep

/-! ## Retired ids stay retired -/

theorem dead_step {s : SysState} {ev : Ev} {s' : SysState} {id : Nat}
    (hstep : Step s ev s') (hd : Dead s id) : Dead s' id := by
  obtain ⟨hlt, hna⟩ := hd
  cases hstep with
  | sched now delay period handler hwrap =>
    rw [Dead, addTimer_state_eq]
    constructor
    · show id < idUpdate s.eng.nextId
      rw [idUpdate, Nat.mod_eq_of_lt hwrap]
      exact Nat.lt_succ_of_lt hlt
    · intro hmem
      simp only [activeIds, List.map_append, List.map_cons, List.map_nil]
        at hmem
      rcases List.mem_append.mp hmem with h' | h'
      · exact hna h'
      · rw [List.mem_singleton.mp h'] at hlt
        exact absurd hlt (lt_irrefl _)
  | fireStart k fid rest t now hq ht hphase hdone hnow =>
    refine ⟨hlt, ?_⟩
    show id ∉ (setTimer s.eng.active fid markRunning).map Timer.id
    rw [setTimer_map_id (f := markRunning) (fun _ => rfl)]
    exact hna
  | fireEndNormal fid t hphase ht hrun =>
    rw [Dead, reconcileRun]
    split
    · refine ⟨hlt, ?_⟩
      show id ∉ (setTimer s.eng.active fid advancePeriod).map Timer.id
      rw [setTimer_map_id (f := advancePeriod) (fun _ => rfl)]
      exact hna
    · exact ⟨hlt, fun h => hna (activeIds_eraseTimer_subset h)⟩
  | fireEndCancelled fid t hphase ht hrun =>
    exact ⟨hlt, fun h => hna (activeIds_eraseTimer_subset h)⟩
  | cancelWait cid t ht hrun =>
    rw [Dead, clearTimer_state_running ht hrun]
    refine ⟨hlt, ?_⟩
    show id ∉ (setTimer s.eng.active cid markCancelled).map Timer.id
    rw [setTimer_map_id (f := markCancelled) (fun _ => rfl)]
    exact hna
  | cancelRetWait cid hw => exact ⟨hlt, hna⟩
  | cancelRemoved cid t ht hrun =>
    rw [Dead, clearTimer_state_notRunning ht hrun]
    exact ⟨hlt, fun h => hna (activeIds_eraseTimer_subset h)⟩
  | cancelMiss cid hmiss => exact ⟨hlt, hna⟩

theorem dead_no_fire {s : SysState} (hs : Inv s) {id : Nat} (hd : Dead s id)
    {now : Int} {s' : SysState} : ¬ Step s (.fireStart id now) s' := by
  intro hstep
  cases hstep with
  | fireStart k id rest t now hq ht hphase hdone hnow =>
    have hhead : (k, id) ∈ s.eng.queue := by
      rw [hq]; exact List.mem_cons_self _ _
    rcases hs.einv.queueRef _ hhead with ⟨t0, ht0, ht0id, -⟩
    exact hd.2 (List.mem_map.mpr ⟨t0, ht0, ht0id⟩)

/-! ## Reachability of the concrete scenarios -/

theorem reach_sA1 : Reach sA1 := by
  have h := Step.sched initSys 0 5 0 7 (by decide)
  have he : ({ initSys with
      eng := (addTimer initSys.eng 0 5 0 7).state } : SysState) = sA1 := by
    decide
  exact Reach.step Reach.init (he ▸ h)

theorem step_sA12 :
    Step sA1 (.fireStart 1 5)
      { sA1 with
          eng := { sA1.eng with
                    queue := [],
                    active := setTimer sA1.eng.active 1 markRunning },
          phase := .inHandler 1 } := by
  exact Step.fireStart sA1 5 1 [] ⟨1, 5, 0, 7, false, false⟩ 5 (by decide)
    (by decide) (by decide) (by decide) (by decide)

theorem reach_sA2 : Reach sA2 := by
  have he : ({ sA1 with
      eng := { sA1.eng with
                queue := [],
                active := setTimer sA1.eng.active 1 markRunning },
      phase := .inHandler 1 } : SysState) = sA2 := by decide
  exact Reach.step reach_sA1 (he ▸ step_sA12)

theorem step_sA23 :
    Step sA2 (.cancelWait 1)
      { sA2 with
          eng := (clearTimer sA2.eng 1).state,
          waiters := (1, false) :: sA2.waiters } := by
  exact Step.cancelWait sA2 1 ⟨1, 5, 0, 7, false, true⟩ (by decide) (by decide)

theorem reach_sA3 : Reach sA3 := by
  have he : ({ sA2 with
      eng := (clearTimer sA2.eng 1).state,
      waiters := (1, false) :: sA2.waiters } : SysState) = sA3 := by decide
  exact Reach.step reach_sA2 (he ▸ step_sA23)

theorem step_sA34 :
    Step sA3 (.fireEndCancelled 1)
      { sA3 with
          eng := { sA3.eng with active := eraseTimer sA3.eng.active 1 },
          waiters := notifyWaiters 1 sA3.waiters,
          phase := .atLoop } := by
  exact Step.fireEndCancelled sA3 1 ⟨1, 5, 0, 7, true, false⟩ (by decide)
    (by decide) (by decide)

theorem reach_sA4 : Reach sA4 := by
  have he : ({ sA3 with
      eng := { sA3.eng with active := eraseTimer sA3.eng.active 1 },
      waiters := notifyWaiters 1 sA3.waiters,
      phase := .atLoop } : SysState) = sA4 := by decide
  exact Reach.step reach_sA3 (he ▸ step_sA34)

theorem step_sA45 :
    Step sA4 (.cancelRetWait 1)
      { sA4 with waiters := sA4.waiters.eraseP (fun w => w.1 == 1) } := by
  exact Step.cancelRetWait sA4 1 (by decide)

theorem reach_sB2 : Reach sB2 := by
  have h1 := Step.sched initSys 0 10 0 7 (by decide)
  have he1 : ({ initSys with
      eng := (addTimer initSys.eng 0 10 0 7).state } : SysState) = sB1 := by
    decide
  have h2 := Step.sched sB1 0 10 0 8 (by decide)
  have he2 : ({ sB1 with
      eng := (addTimer sB1.eng 0 10 0 8).state } : SysState) = sB2 := by
    decide
  exact Reach.step (Reach.step Reach.init (he1 ▸ h1)) (he2 ▸ h2)

theorem reach_sB3 : Reach sB3 := by
  have h := Step.cancelRemoved sB2 1 ⟨1, 10, 0, 7, false, false⟩ (by decide)
    (by decide)
  have he : ({ sB2 with eng := (clearTimer sB2.eng 1).state } : SysState)
      = sB3 := by decide
  exact Reach.step reach_sB2 (he ▸ h)

theorem reach_eC8 : Reach ⟨eC8, .atLoop, []⟩ := by
  have h1 := Step.sched initSys 0 5 0 1 (by decide)
  have he1 : ({ initSys with
      eng := (addTimer initSys.eng 0 5 0 1).state } : SysState) =
      ⟨⟨2, [⟨1, 5, 0, 1, false, false⟩], [(5, 1)], false⟩, .atLoop, []⟩ := by
    decide
  have r1 := Reach.step Reach.init (he1 ▸ h1)
  have h2 := Step.sched
    (⟨⟨2, [⟨1, 5, 0, 1, false, false⟩], [(5, 1)], false⟩, .atLoop, []⟩ :
      SysState) 0 5 0 2 (by decide)
  have he2 : ({ (⟨⟨2, [⟨1, 5, 0, 1, false, false⟩], [(5, 1)], false⟩,
      .atLoop, []⟩ : SysState) with
      eng := (addTimer (⟨2, [⟨1, 5, 0, 1, false, false⟩], [(5, 1)], false⟩ :
        EngineState) 0 5 0 2).state } : SysState) =
      ⟨⟨3, [⟨1, 5, 0, 1, false, false⟩, ⟨2, 5, 0, 2, false, false⟩],
        [(5, 1), (5, 2)], false⟩, .atLoop, []⟩ := by decide
  have r2 := Reach.step r1 (he2 ▸ h2)
  have h3 := Step.sched
    (⟨⟨3, [⟨1, 5, 0, 1, false, false⟩, ⟨2, 5, 0, 2, false, false⟩],
      [(5, 1), (5, 2)], false⟩, .atLoop, []⟩ : SysState) 0 9 0 3 (by decide)
  have he3 : ({ (⟨⟨3, [⟨1, 5, 0, 1, false, false⟩, ⟨2, 5, 0, 2, false, false⟩],
      [(5, 1), (5, 2)], false⟩, .atLoop, []⟩ : SysState) with
      eng := (addTimer (⟨3,
        [⟨1, 5, 0, 1, false, false⟩, ⟨2, 5, 0, 2, false, false⟩],
        [(5, 1), (5, 2)], false⟩ : EngineState) 0 9 0 3).state } : SysState) =
      ⟨eC8, .atLoop, []⟩ := by decide
  exact Reach.step r2 (he3 ▸ h3)

/-! ## Arithmetic of the id counter -/

theorem addTimer_state_nextId (e : EngineState) (now d p : Int) (h : Nat) :
    (addTimer e now d p h).state.nextId = idUpdate e.nextId := rfl

theorem runAdds_ids (rs : List (Int × Int × Int × Nat)) :
    ∀ e : EngineState,
      (runAdds e rs).2 =
        (List.range rs.length).map (fun k => idUpdate^[k] e.nextId) := by
  induction rs with
  | nil => intro e; simp [runAdds]
  | cons r rs ih =>
    intro e
    simp only [runAdds]
    rw [ih, addTimer_state_nextId, List.length_cons,
      List.range_succ_eq_map]
    simp only [List.map_cons, List.map_map, Function.iterate_zero, id_eq]
    have htail :
        List.map (fun k => idUpdate^[k] (idUpdate e.nextId))
            (List.range rs.length) =
          List.map ((fun k => idUpdate^[k] e.nextId) ∘ Nat.succ)
            (List.range rs.length) := by
      apply List.map_congr_left
      intro k _
      show idUpdate^[k] (idUpdate e.nextId) = idUpdate^[k + 1] e.nextId
      exact (Function.iterate_succ_apply idUpdate k e.nextId).symm
    rw [htail]
    rfl

theorem idIter_one (k : Nat) : idUpdate^[k] 1 = (1 + k) % UINT64_MOD := by
  induction k with
  | zero =>
    have h1 : (1 : Nat) < UINT64_MOD := by rw [UINT64_MOD]; norm_num
    simp [Nat.mod_eq_of_lt h1]
  | succ k ih =>
    rw [Function.iterate_succ_apply', ih, idUpdate, Nat.mod_add_mod]
    exact congrArg (fun n => n % UINT64_MOD) (by omega)

/-! ## A few more facts about `destroy_impl` and `addTimer` -/

theorem destroy_impl_found_some (e : EngineState) (l : Bool) (t : Timer)
    (n : Bool) : (destroy_impl e l (some t) n).found = true := by
  simp only [destroy_impl]
  split <;> rfl

theorem destroy_impl_found_none (e : EngineState) (l n : Bool) :
    (destroy_impl e l none n).found = false := rfl

theorem findTimer_append_fresh :
    ∀ (a : List Timer) (t : Timer), (∀ u ∈ a, u.id ≠ t.id) →
      findTimer (a ++ [t]) t.id = some t := by
  intro a t
  induction a with
  | nil =>
    intro _
    show List.find? _ [t] = some t
    rw [List.find?_cons_of_pos]
    simp
  | cons x xs ih =>
    intro h
    rw [List.cons_append, findTimer, List.find?_cons_of_neg]
    · exact ih (fun u hu => h u (List.mem_cons_of_mem x hu))
    · simp only [beq_iff_eq]
      exact h x (List.mem_cons_self x xs)

theorem fireStart_inversion {s : SysState} {id : Nat} {now : Int}
    {s' : SysState} (h : Step s (.fireStart id now) s') :
    ∃ k rest t, s.eng.queue = (k, id) :: rest ∧
      findTimer s.eng.active id = some t ∧ s.phase = .atLoop ∧
      s.eng.done = false ∧ t.next ≤ now :=
  match h with
  | .fireStart _ k _ rest t _ hq ht hphase hdone hnow =>
      ⟨k, rest, t, hq, ht, hphase, hdone, hnow⟩

theorem cancelRetWait_inversion {s : SysState} {id : Nat} {s' : SysState}
    (h : Step s (.cancelRetWait id) s') :
    (id, true) ∈ s.waiters ∧
      s' = { s with waiters := s.waiters.eraseP (fun w => w.1 == id) } :=
  match h with
  | .cancelRetWait _ _ hw => ⟨hw, rfl⟩

theorem cancelWait_inversion {s : SysState} {id : Nat} {s' : SysState}
    (h : Step s (.cancelWait id) s') :
    s' = { s with eng := (clearTimer s.eng id).state,
                  waiters := (id, false) :: s.waiters } :=
  match h with
  | .cancelWait _ _ _ _ _ => rfl

/-! ## The claims -/

/-- **C1**: for a timer whose handler is executing on the worker, a
concurrent `clearTimer` (1) flips `running` to `false`, allocates the
completion signal and blocks the caller; (2) the blocked caller cannot
return before it has been notified; (3) the only step that notifies it is
the worker's cancelled-reconcile of that very timer; (4) when the blocked
cancel finally returns `true` the handler has returned, no handler for
that timer is in flight, and the entry has been erased from the registry;
(5/6) a retired id is never fired again afterwards. -/
theorem cancel_during_fire_protocol (s : SysState) (hs : Reach s) :
    (∀ id t s', findTimer s.eng.active id = some t → t.running = true →
        Step s (.cancelWait id) s' →
        findTimer s'.eng.active id = some (markCancelled t) ∧
        (id, false) ∈ s'.waiters ∧ s'.phase = s.phase) ∧
    (∀ id s', (id, true) ∉ s.waiters → ¬ Step s (.cancelRetWait id) s') ∧
    (∀ id ev s', Step s ev s' → (id, true) ∉ s.waiters →
        (id, true) ∈ s'.waiters → ev = .fireEndCancelled id) ∧
    (∀ id s', Step s (.cancelRetWait id) s' →
        id ∉ activeIds s'.eng ∧ s'.phase ≠ .inHandler id ∧ Dead s' id) ∧
    (∀ id now s', Dead s id → ¬ Step s (.fireStart id now) s') ∧
    (∀ id ev s', Dead s id → Step s ev s' → Dead s' id) := by
  have hinv := reach_inv hs
  refine ⟨?_, ?_, ?_, ?_, ?_, ?_⟩
  · intro id t s' ht hrun hstep
    obtain rfl := cancelWait_inversion hstep
    refine ⟨?_, List.mem_cons_self _ _, rfl⟩
    show findTimer (clearTimer s.eng id).state.active id = _
    rw [clearTimer_state_running ht hrun]
    show findTimer (setTimer s.eng.active id markCancelled) id = _
    rw [findTimer_setTimer (f := markCancelled) (fun _ => rfl), ht]
    rfl
  · intro id s' hnw hstep
    exact hnw (cancelRetWait_inversion hstep).1
  · intro id ev s' hstep hnot hmem
    cases hstep with
    | sched now delay period handler hwrap => exact absurd hmem hnot
    | fireStart k fid rest t now hq ht hphase hdone hnow =>
      exact absurd hmem hnot
    | fireEndNormal fid t hphase ht hrun => exact absurd hmem hnot
    | fireEndCancelled fid t hphase ht hrun =>
      rcases List.mem_map.mp hmem with ⟨w, hw, hval⟩
      by_cases hcase : w.1 = fid
      · have hfid : fid = id := by
          rw [if_pos hcase] at hval
          have h1 := congrArg Prod.fst hval
          simp only at h1
          rw [← h1, ← hcase]
        rw [hfid]
      · rw [if_neg hcase] at hval
        exact absurd (hval ▸ hw) hnot
    | cancelWait t ht hrun =>
      rcases List.mem_cons.mp hmem with h | h
      · exact absurd (congrArg Prod.snd h) (by simp)
      · exact absurd h hnot
    | cancelRetWait hw =>
      exact absurd ((List.eraseP_sublist s.waiters).mem hmem) hnot
    | cancelRemoved t ht hrun => exact absurd hmem hnot
    | cancelMiss hmiss => exact absurd hmem hnot
  · intro id s' hstep
    obtain ⟨hw, rfl⟩ := cancelRetWait_inversion hstep
    rcases hinv.doneWaiter id hw with ⟨hna, hlt, hph⟩
    exact ⟨hna, hph, hlt, hna⟩
  · intro id now s' hd
    exact dead_no_fire hinv hd
  · intro id ev s' hd hstep
    exact dead_step hstep hd

/-- Witness for **C1**: on the concrete cancel-during-fire run of scenario
A, the blocked canceller's return finds the entry erased, the handler
finished, and the id retired. -/
theorem cancel_during_fire_protocol_witness :
    1 ∉ activeIds sA5.eng ∧ sA5.phase ≠ .inHandler 1 ∧ Dead sA5 1 := by
  have he : ({ sA4 with
      waiters := sA4.waiters.eraseP (fun w => w.1 == 1) } : SysState) =
      sA5 := by decide
  exact (cancel_during_fire_protocol sA4 reach_sA4).2.2.2.1 1 sA5
    (he ▸ step_sA45)

/-- **C2** (counterexample): a timer with the nonzero period `-1` whose
handler has returned uncancelled is *erased* by the worker's reconcile
(the code tests `period.count() > 0`, not `!= 0`), not re-inserted with
its deadline advanced as the claim states. -/
theorem periodic_negative_period_erased :
    tNeg.period ≠ 0 ∧ tNeg.running = true ∧
    (reconcileRun eNeg 1 tNeg).active = [] ∧
    findTimer (reconcileRun eNeg 1 tNeg).active 1 = none ∧
    (reconcileRun eNeg 1 tNeg).queue = [] := by decide

/-- **C2** (amended): when the worker reconciles a timer whose handler
returned with no concurrent cancel, a *positive* period advances `next`
by exactly one period from its previous scheduled value and re-inserts
the timer into the queue; a period that is zero *or negative* erases the
entry from the registry. -/
theorem reconcile_period_behavior (e : EngineState) (id : Nat) (t : Timer)
    (ht : findTimer e.active id = some t) :
    (0 < t.period →
      findTimer (reconcileRun e id t).active id = some (advancePeriod t) ∧
      (t.next + t.period, id) ∈ (reconcileRun e id t).queue) ∧
    (t.period ≤ 0 →
      findTimer (reconcileRun e id t).active id = none) := by
  constructor
  · intro hper
    rw [reconcileRun, if_pos hper]
    constructor
    · show findTimer (setTimer e.active id advancePeriod) id = _
      rw [findTimer_setTimer (f := advancePeriod) (fun _ => rfl), ht]
      rfl
    · exact mem_qinsert.mpr (Or.inl rfl)
  · intro hper
    rw [reconcileRun, if_neg (not_lt.mpr hper)]
    exact findTimer_eraseTimer e.active id

/-- Witness for **C2**: the period-3 timer `tPer` is re-scheduled at
`next + period = 8`. -/
theorem reconcile_period_behavior_witness :
    findTimer (reconcileRun ePer 1 tPer).active 1 =
      some (advancePeriod tPer) ∧
    (tPer.next + tPer.period, 1) ∈ (reconcileRun ePer 1 tPer).queue :=
  (reconcile_period_behavior ePer 1 tPer (by decide)).1 (by decide)

/-- **C3**: `clearTimer(id)` returns `false` exactly when `id` is absent
from the registry; on a present, not-running timer it returns `true` and
removes the timer from both the registry and the ordering queue. -/
theorem cancel_result_characterization (e : EngineState) (id : Nat)
    (he : EInv e) :
    ((clearTimer e id).found = false ↔ findTimer e.active id = none) ∧
    (∀ t, findTimer e.active id = some t → t.running = false →
      (clearTimer e id).found = true ∧
      id ∉ activeIds (clearTimer e id).state ∧
      id ∉ queueIds (clearTimer e id).state) := by
  obtain ⟨hnda, hndq, href, hsort, hfresh, hpos⟩ := he
  constructor
  · cases hfind : findTimer e.active id with
    | none =>
      constructor
      · intro _; rfl
      · intro _
        show (destroy_impl e true (findTimer e.active id) true).found = false
        rw [hfind]
        exact destroy_impl_found_none e true true
    | some t =>
      constructor
      · intro hfound
        exfalso
        have hf : (clearTimer e id).found = true := by
          show (destroy_impl e true (findTimer e.active id) true).found = true
          rw [hfind]
          exact destroy_impl_found_some e true t true
        rw [hf] at hfound
        exact Bool.noConfusion hfound
      · intro hnone
        exact absurd hnone (by simp)
  · intro t ht hrun
    refine ⟨?_, ?_, ?_⟩
    · show (destroy_impl e true (findTimer e.active id) true).found = true
      rw [ht]
      exact destroy_impl_found_some e true t true
    · rw [clearTimer_state_notRunning ht hrun]
      exact id_not_mem_eraseTimer e.active id
    · rw [clearTimer_state_notRunning ht hrun]
      intro hmem
      rcases List.mem_map.mp hmem with ⟨x, hx, hxid⟩
      obtain ⟨hxq, hxk⟩ := mem_qEraseKey.mp hx
      rcases href x hxq with ⟨u, hu, huid, hukey⟩
      obtain ⟨htmem, htid⟩ := findTimer_some ht
      have hut : u = t := mem_id_eq hnda hu htmem (by rw [huid, hxid, htid])
      exact hxk (by rw [hukey, hut])

/-- Witness for **C3**: on `eC4`, cancelling the unknown id 5 is refused
and cancelling the idle timer 2 removes it from registry and queue. -/
theorem cancel_result_characterization_witness :
    ((clearTimer eC4 2).found = false ↔ findTimer eC4.active 2 = none) ∧
    ((clearTimer eC4 2).found = true ∧
      2 ∉ activeIds (clearTimer eC4 2).state ∧
      2 ∉ queueIds (clearTimer eC4 2).state) := by
  have h := cancel_result_characterization eC4 2
    ⟨by decide, by decide, by decide, by decide, by decide, by decide⟩
  exact ⟨h.1, h.2 ⟨2, 20, 0, 8, false, false⟩ (by decide) (by decide)⟩

/-- **C4** (counterexample): cancelling the idle timer 2 of `eC4` leaves
the earliest queue entry (the next wakeup deadline) unchanged, yet
`clearTimer` still runs `wakeUp.notify_all()` — the code passes
`notify = true` unconditionally, it never tests whether the removal
affects the next wakeup deadline. -/
theorem cancel_notifies_despite_unchanged_deadline :
    (clearTimer eC4 2).found = true ∧
    (clearTimer eC4 2).notified = true ∧
    (clearTimer eC4 2).state.queue.head? = eC4.queue.head? := by decide

/-- **C4** (amended): removing a not-running timer through `clearTimer`
*always* signals the worker after releasing the lock, whether or not the
earliest deadline changed. -/
theorem cancel_always_notifies (e : EngineState) (id : Nat) (t : Timer)
    (ht : findTimer e.active id = some t) (hrun : t.running = false) :
    (clearTimer e id).notified = true := by
  rw [clearTimer, ht]
  simp only [destroy_impl]
  rw [if_neg (by rw [hrun]; exact Bool.false_ne_true)]

/-- Witness for **C4**: cancelling timer 2 of `eC4` notifies. -/
theorem cancel_always_notifies_witness :
    (clearTimer eC4 2).notified = true :=
  cancel_always_notifies eC4 2 ⟨2, 20, 0, 8, false, false⟩ (by decide)
    (by decide)

/-- **C5** (counterexample): `nextId` is a `std::uint64_t`, so the
`2 ^ 64`-th `addTimer` call of one engine instance returns the id `0`,
which is `no_timer` — the claim that every issued id is non-zero (and
never reused) fails once the counter wraps. -/
theorem id_counter_wraps_to_no_timer :
    ((runAdds initEngine
        (List.replicate UINT64_MOD
          ((0 : Int), (0 : Int), (0 : Int), (0 : Nat)))).2)[UINT64_MOD - 1]? =
      some no_timer := by
  rw [runAdds_ids, List.length_replicate]
  rw [List.getElem?_map]
  have hM0 : 0 < UINT64_MOD := by rw [UINT64_MOD]; norm_num
  rw [List.getElem?_range (by omega)]
  show some (idUpdate^[UINT64_MOD - 1] initEngine.nextId) = some no_timer
  have hn : initEngine.nextId = 1 := rfl
  rw [hn, idIter_one]
  have h1 : 1 + (UINT64_MOD - 1) = UINT64_MOD := by omega
  rw [h1, Nat.mod_self]
  rfl

/-- **C5** (amended): as long as one engine instance performs at most
`2 ^ 64 - 1` schedule operations — i.e. before the 64-bit id counter can
wrap — the issued ids are strictly increasing (hence never reused) and
never equal to `no_timer`. -/
theorem ids_strictly_increasing_below_wrap
    (rs : List (Int × Int × Int × Nat))
    (hlen : rs.length ≤ UINT64_MOD - 1) :
    ((runAdds initEngine rs).2).Pairwise (fun a b => a < b) ∧
    ∀ i ∈ (runAdds initEngine rs).2, i ≠ no_timer := by
  rw [runAdds_ids]
  have hn : initEngine.nextId = 1 := rfl
  rw [hn]
  have hM : UINT64_MOD = 18446744073709551616 := by
    rw [UINT64_MOD]; norm_num
  rw [hM] at hlen
  have hpt : ∀ k ∈ List.range rs.length, idUpdate^[k] 1 = 1 + k := by
    intro k hk
    rw [idIter_one, hM]
    apply Nat.mod_eq_of_lt
    have hk' := List.mem_range.mp hk
    omega
  rw [List.map_congr_left hpt]
  constructor
  · exact (List.pairwise_lt_range _).map _
      (fun a b h => Nat.add_lt_add_left h 1)
  · intro i hi
    rcases List.mem_map.mp hi with ⟨k, _, hki⟩
    rw [← hki]
    show 1 + k ≠ 0
    omega

/-- Witness for **C5**: two schedule operations on a fresh engine issue
the strictly increasing non-zero ids 1 and 2. -/
theorem ids_strictly_increasing_below_wrap_witness :
    ((runAdds initEngine
        [((0 : Int), (5 : Int), (0 : Int), (7 : Nat)),
          ((0 : Int), (9 : Int), (0 : Int), (8 : Nat))]).2).Pairwise
        (fun a b => a < b) ∧
    ∀ i ∈ (runAdds initEngine
        [((0 : Int), (5 : Int), (0 : Int), (7 : Nat)),
          ((0 : Int), (9 : Int), (0 : Int), (8 : Nat))]).2, i ≠ no_timer :=
  ids_strictly_increasing_below_wrap _ (by norm_num [UINT64_MOD])

/-- **C6**: whenever the worker fires a timer, the fired timer's deadline
is due (`next ≤ now`) and minimal among all entries of the ordering
queue: the worker never fires a later-deadline timer while an
earlier-deadline timer is queued. -/
theorem worker_fires_min_deadline {s : SysState} {id : Nat} {now : Int}
    {s' : SysState} (hs : Reach s)
    (hstep : Step s (.fireStart id now) s') :
    ∃ t, findTimer s.eng.active id = some t ∧ t.next ≤ now ∧
      ∀ x ∈ s.eng.queue, t.next ≤ x.1 := by
  obtain ⟨⟨hnda, hndq, href, hsort, hfresh, hpos⟩, hinq, hdw⟩ := reach_inv hs
  obtain ⟨k, rest, t, hq, ht, hphase, hdone, hnow⟩ := fireStart_inversion hstep
  refine ⟨t, ht, hnow, ?_⟩
  have hhead : (k, id) ∈ s.eng.queue := by
    rw [hq]; exact List.mem_cons_self _ _
  rcases href _ hhead with ⟨t0, ht0, ht0id, hkey⟩
  obtain ⟨htmem, htid⟩ := findTimer_some ht
  have ht0t : t0 = t := mem_id_eq hnda ht0 htmem (by rw [ht0id, htid])
  have hknext : k = t.next := by rw [ht0t] at hkey; exact hkey
  intro x hx
  rw [hq] at hx
  rcases List.mem_cons.mp hx with rfl | hx'
  · exact le_of_eq hknext.symm
  · have hp := hsort
    rw [qSorted, hq, List.pairwise_cons] at hp
    have hle := hp.1 x hx'
    rw [← hknext]
    exact hle

/-- Witness for **C6**: firing timer 1 of scenario A at clock 5 fires the
queue minimum. -/
theorem worker_fires_min_deadline_witness :
    ∃ t, findTimer sA1.eng.active 1 = some t ∧ t.next ≤ 5 ∧
      ∀ x ∈ sA1.eng.queue, t.next ≤ x.1 :=
  worker_fires_min_deadline reach_sA1 step_sA12

/-- **C7** (code bug): after scheduling two timers with equal deadline 10
and cancelling the first, the reachable state `sB3` holds timer 2 live in
the registry, not running, with the worker idle — yet timer 2 is absent
from the ordering queue: `destroy_impl`'s `queue.erase(timer)` resolves
to `std::multiset::erase(const key_type&)` and removes *every* entry
whose deadline equals the cancelled timer's.  The spec's Index invariant
("a timer appears in the Index iff it is live and not running") fails;
timer 2 can never fire although `size()` still counts it. -/
theorem equal_deadline_cancel_desyncs_index :
    Reach sB3 ∧
    findTimer sB3.eng.active 2 = some ⟨2, 10, 0, 8, false, false⟩ ∧
    sB3.phase = .atLoop ∧
    2 ∉ queueIds sB3.eng ∧
    (clearTimer sB2.eng 1).found = true ∧
    (clearTimer sB2.eng 1).state = sB3.eng :=
  ⟨reach_sB3, by decide, rfl, by decide, by decide, by decide⟩

/-- **C8** (code bug): on the reachable three-timer state `eC8` (deadlines
5, 5, 9, none running), `clear()` empties the registry — `size() = 0`,
`empty() = true` — but the equal-deadline `queue.erase(key)` desyncs the
queue from the registry, so the `queue.size() == 1` test fires the wake
notification *twice*, at the second *and* third removals instead of
deferring it to the very last one; worse, after the first notification
`destroy_impl` returned with the lock released, so the next iteration
violates its own `assert(lock.owns_lock())`. -/
theorem clear_equal_deadlines_misbehaves :
    Reach ⟨eC8, .atLoop, []⟩ ∧
    (∀ t ∈ eC8.active, t.running = false) ∧
    (clear eC8).1.active = [] ∧
    size (clear eC8).1 = 0 ∧
    isEmpty (clear eC8).1 = true ∧
    (clear eC8).2.1 = 2 ∧
    (clear eC8).2.2 = false :=
  ⟨reach_eC8, by decide, by decide, by decide, by decide, by decide,
    by decide⟩

/-- **C9**: `setInterval(handler, period)` is definitionally
`addTimer(period, period, handler)` and `setTimeout(handler, timeout)` is
definitionally `addTimer(timeout, 0, handler)`: same returned id, same
notification, same resulting state. -/
theorem set_interval_set_timeout_delegate (e : EngineState) (now : Int)
    (h : Nat) (d : Int) :
    setInterval e now h d = addTimer e now d d h ∧
    setTimeout e now h d = addTimer e now d 0 h :=
  ⟨rfl, rfl⟩

/-- **C10**: `addTimer` performs no validation on the delay: a negative
delay is accepted, a fresh non-zero id is returned, and the stored timer
has `next = now + delay`, a timestamp strictly in the past, so it is
already due (`next ≤ now`) at the worker's next check. -/
theorem add_timer_accepts_negative_delay (e : EngineState) (now d p : Int)
    (hand : Nat) (he : EInv e) (hd : d < 0) :
    (addTimer e now d p hand).id = e.nextId ∧
    (addTimer e now d p hand).id ≠ no_timer ∧
    (addTimer e now d p hand).id ∉ activeIds e ∧
    findTimer (addTimer e now d p hand).state.active
        (addTimer e now d p hand).id =
      some ⟨e.nextId, now + d, p, hand, false, false⟩ ∧
    now + d < now := by
  obtain ⟨hnda, hndq, href, hsort, hfresh, hpos⟩ := he
  have hfreshid : ∀ u ∈ e.active, u.id ≠ e.nextId := fun u hu =>
    Nat.ne_of_lt (hfresh u hu).1
  refine ⟨rfl, ?_, ?_, ?_, by omega⟩
  · show e.nextId ≠ 0
    omega
  · show e.nextId ∉ activeIds e
    intro hmem
    rcases List.mem_map.mp hmem with ⟨u, hu, huid⟩
    exact hfreshid u hu huid
  · rw [addTimer_state_eq]
    exact findTimer_append_fresh e.active
      ⟨e.nextId, now + d, p, hand, false, false⟩ hfreshid

/-- Witness for **C10**: `addTimer(-1, 0, handler)` on a fresh engine at
clock 0 returns id 1 and stores a timer due at `-1 < 0`. -/
theorem add_timer_accepts_negative_delay_witness :
    (addTimer initEngine 0 (-1) 0 7).id = initEngine.nextId ∧
    (addTimer initEngine 0 (-1) 0 7).id ≠ no_timer ∧
    (addTimer initEngine 0 (-1) 0 7).id ∉ activeIds initEngine ∧
    findTimer (addTimer initEngine 0 (-1) 0 7).state.active
        (addTimer initEngine 0 (-1) 0 7).id =
      some ⟨1, 0 + (-1), 0, 7, false, false⟩ ∧
    (0 : Int) + (-1) < 0 :=
  add_timer_accepts_negative_delay initEngine 0 (-1) 0 7
    ⟨by decide, by decide, by decide, by decide, by decide, by decide⟩
    (by decide)

end TimerThread
